import Mathlib

/-!
Verification of the ImageSorter duplicate-detection engine.

This file shallowly embeds the Rust sources of the repository:
* `src-tauri/src/services/hashing.rs` — image loading/downscaling and
  perceptual hash computation (`load_image`, `compute_perceptual_hash`);
* `src-tauri/src/commands/folder.rs` — the `find_duplicates` command:
  the parallel hashing pipeline (modelled per-path; rayon's indexed
  `par_iter().filter_map().collect()` preserves input order, so the
  collected list is `paths.filterMap`), error accounting, and the
  pairwise grouping stage.

Machine integers (`u32`, `u64`, `usize`) are modelled as `Nat`; none of
the embedded arithmetic can overflow in the source (counts are bounded
by list lengths, hashes are 64-bit values handled as opaque bit
vectors).  A 64-bit perceptual hash is modelled as a `Nat` (its bit
vector read through `Nat.testBit`); the source stores it base64-encoded
(`to_base64`) and decodes it back with `from_base64` before comparing,
a round-trip that is the identity and is modelled as such.
Fallible Rust functions returning `Result`/`Option` are modelled with
`Except`/`Option`.
-/

/-- `ImageInfo` from `folder.rs`: path, filename and file size of one image. -/
structure ImageInfo where
  path : String
  filename : String
  size_bytes : Nat
deriving DecidableEq, Repr

/-- `ImageWithHash` from `folder.rs`: an `ImageInfo` together with its
perceptual hash.  The source stores the hash as a base64 `String`; it is
modelled here as the decoded 64-bit value. -/
structure ImageWithHash where
  info : ImageInfo
  hash : Nat
deriving DecidableEq, Repr

/-- `DuplicateResult` from `folder.rs`.  A `DuplicateGroup` is just its
`images` vector, so groups are modelled as `List ImageInfo`. -/
structure DuplicateResult where
  groups : List (List ImageInfo)
  total_duplicates : Nat
  processed : Nat
  errors : Nat
deriving DecidableEq, Repr

/-- Hamming distance between two 64-bit hashes (`img_hash`'s
`ImageHash::dist`): the number of differing bits.  The hashes produced by
the configured 8x8 hasher are 64-bit values. -/
def hdist (a b : Nat) : Nat :=
  (List.range 64).countP (fun i => a.testBit i != b.testBit i)

/-- A decoded image: dimensions plus row-major luminance data.
Models the `image` crate's `DynamicImage` at the level of detail the
hashing code observes (dimensions and sampled pixel values). -/
structure Image where
  width : Nat
  height : Nat
  pixels : List Nat
deriving DecidableEq, Repr

/-- Pixel of `img` sampled at `(x, y)` of a nearest-neighbour resize to
`nw × nh`.  Modelled from the `image` crate (external dependency):
nearest-neighbour sampling maps target coordinates back to source
coordinates by the dimension ratio. -/
def samplePixel (img : Image) (nw nh x y : Nat) : Nat :=
  img.pixels.getD ((y * img.height / nh) * img.width + x * img.width / nw) 0

/-- Round `a / b` to the nearest natural (half away from zero), as the
`f64` arithmetic in the `image` crate's `resize_dimensions` does. -/
def natRound (a b : Nat) : Nat := (2 * a + b) / (2 * b)

/-- Modelled from the `image` crate (external dependency):
`resize` target dimensions — preserve the aspect ratio so the result
fits within `nw × nh`, each dimension at least 1. -/
def resizeDims (w h nw nh : Nat) : Nat × Nat :=
  if h * nw ≤ w * nh then (nw, max 1 (natRound (h * nw) w))
  else (max 1 (natRound (w * nh) h), nh)

/-- Modelled from the `image` crate (external dependency): aspect-ratio
preserving resize with the `Nearest` filter. -/
def resizeNearest (img : Image) (nw nh : Nat) : Image :=
  let d := resizeDims img.width img.height nw nh
  { width := d.1
    height := d.2
    pixels := (List.range d.2).flatMap (fun y =>
      (List.range d.1).map (fun x => samplePixel img d.1 d.2 x y)) }

/-- The downscaling step of `load_image` (`hashing.rs` lines 53-58):
images larger than 512 in either dimension are resized to fit within
512 × 512 with the `Nearest` filter; smaller images pass through. -/
def scale512 (img : Image) : Image :=
  if 512 < img.width ∨ 512 < img.height then resizeNearest img 512 512 else img

/-- `HashType` from `hashing.rs`. -/
inductive HashType where
  | Exact
  | Perceptual
  | Difference
  | Average
deriving DecidableEq, Repr

/-- Big-endian accumulation of a bit list into a `Nat`. -/
def bitsToNat (l : List Bool) : Nat :=
  l.foldl (fun acc b => 2 * acc + (if b then 1 else 0)) 0

/-- Modelled from the `img_hash` crate (external dependency):
`HashAlg::Gradient` (dHash) at 8x8 — sample the image at 9 × 8 and set a
bit where a pixel is brighter than its left neighbour. -/
def gradientHash (img : Image) : Nat :=
  bitsToNat ((List.range 8).flatMap (fun y =>
    (List.range 8).map (fun x =>
      decide (samplePixel img 9 8 x y < samplePixel img 9 8 (x + 1) y))))

/-- Modelled from the `img_hash` crate (external dependency):
`HashAlg::DoubleGradient` (pHash variant) — horizontal and vertical
gradients at half resolution, 64 bits in total. -/
def doubleGradientHash (img : Image) : Nat :=
  bitsToNat
    ((List.range 8).flatMap (fun y =>
      (List.range 4).map (fun x =>
        decide (samplePixel img 5 8 x y < samplePixel img 5 8 (x + 1) y))) ++
     (List.range 8).flatMap (fun x =>
      (List.range 4).map (fun y =>
        decide (samplePixel img 8 5 x y < samplePixel img 8 5 x (y + 1)))))

/-- The 8 × 8 sample grid used by the mean hash. -/
def meanSamples (img : Image) : List Nat :=
  (List.range 8).flatMap (fun y => (List.range 8).map (fun x => samplePixel img 8 8 x y))

/-- Modelled from the `img_hash` crate (external dependency):
`HashAlg::Mean` (aHash) — a bit per sample, set where the sample is at
least the mean. -/
def meanHash (img : Image) : Nat :=
  bitsToNat ((meanSamples img).map (fun px => decide ((meanSamples img).sum / 64 ≤ px)))

/-- `compute_perceptual_hash` from `hashing.rs` (lines 63-81): selects the
hash algorithm from `hash_type`; `HashType::Exact` takes the early-return
error branch, every other variant hashes the image with the configured
8x8 hasher (`hash_image` is total). -/
def compute_perceptual_hash (image : Image) (hash_type : HashType) : Except String Nat :=
  match hash_type with
  | HashType.Perceptual => Except.ok (doubleGradientHash image)
  | HashType.Difference => Except.ok (gradientHash image)
  | HashType.Average => Except.ok (meanHash image)
  | HashType.Exact => Except.error "Bruk compute_exact_hash for eksakt hashing"

/-- The ambient filesystem and image decoder, as `find_duplicates`
observes them: `openImage p` models `image::open(p)` (`none` for an
unreadable file or a decode failure), `metadata p` models
`std::fs::metadata(p)` returning the file length and modification time
(`none` when reading metadata fails). -/
structure FS where
  openImage : String → Option Image
  metadata : String → Option (Nat × Nat)

/-- `load_image` from `hashing.rs` (lines 47-59): decode via
`image::open`, then downscale large images. -/
def load_image (fs : FS) (p : String) : Option Image :=
  match fs.openImage p with
  | none => none
  | some img => some (scale512 img)

/-- The characters after the last separator. -/
def lastComp : List Char → List Char → List Char
  | [], acc => acc
  | c :: rest, acc => if c = '/' then lastComp rest [] else lastComp rest (acc ++ [c])

/-- Models `Path::file_name().map(to_string_lossy).unwrap_or_default()`:
the component after the last separator, `""` when there is none. -/
def fileNameOf (s : String) : String := String.mk (lastComp s.data [])

/-- One path of the hashing pipeline of `find_duplicates`
(`folder.rs` lines 105-139): load, hash with `HashType::Difference`,
then build the record; the file size comes from `std::fs::metadata`
with `unwrap_or(0)`.  `none` means the path is dropped. -/
def hashPath (fs : FS) (path_str : String) : Option ImageWithHash :=
  match load_image fs path_str with
  | none => none
  | some img =>
    match compute_perceptual_hash img HashType.Difference with
    | Except.error _ => none
    | Except.ok h =>
      some { info := { path := path_str
                       filename := fileNameOf path_str
                       size_bytes := ((fs.metadata path_str).map Prod.fst).getD 0 }
             hash := h }

/-- The error-counter contribution of one path (`folder.rs` lines
128-131 and 134-137): 1 from either `Err` branch, 0 on success. -/
def pathErrorTicks (fs : FS) (path_str : String) : Nat :=
  match load_image fs path_str with
  | none => 1
  | some img =>
    match compute_perceptual_hash img HashType.Difference with
    | Except.error _ => 1
    | Except.ok _ => 0

/-- The collected `hashed_images` vector: rayon's indexed
`par_iter().filter_map().collect()` preserves the input order. -/
def hashedImages (fs : FS) (paths : List String) : List ImageWithHash :=
  paths.filterMap (hashPath fs)

/-- The final value of `error_count`: each worker increments the shared
counter once per failed path. -/
def errorsOf (fs : FS) (paths : List String) : Nat :=
  (paths.map (pathErrorTicks fs)).sum

/-- Association-list lookup with `Nat` keys, modelling
`HashMap::get`/`contains_key` for `image_to_group` (latest insertion
first; keys are never inserted twice). -/
def lookupA : List (Nat × Nat) → Nat → Option Nat
  | [], _ => none
  | (k, v) :: rest, a => if k = a then some v else lookupA rest a

/-- The inner loop of the grouping stage (`folder.rs` lines 158-172):
scan the remaining enumerated records; a record not yet in
`image_to_group` whose hash is within `t` of the seed's hash is appended
to the member list and assigned to the seed's group. -/
def innerLoop (h1 : Nat) (t : Nat) (gid : Nat) :
    List (Nat × ImageWithHash) → List (Nat × Nat) → List ImageInfo →
    List ImageInfo × List (Nat × Nat)
  | [], itg, members => (members, itg)
  | (j, img2) :: rest, itg, members =>
    if (lookupA itg j).isSome then
      innerLoop h1 t gid rest itg members
    else if hdist h1 img2.hash ≤ t then
      innerLoop h1 t gid rest ((j, gid) :: itg) (members ++ [img2.info])
    else
      innerLoop h1 t gid rest itg members

/-- The outer loop of the grouping stage (`folder.rs` lines 149-178):
each record not yet in `image_to_group` becomes a seed; after the inner
scan, the member list is recorded under the group id when it has more
than one member.  The `groups` accumulator is the `groups : HashMap`
as an insertion-ordered association list. -/
def outerLoop (t : Nat) :
    List (Nat × ImageWithHash) → List (Nat × Nat) → Nat → List (Nat × List ImageInfo) →
    List (Nat × List ImageInfo)
  | [], _, _, groups => groups
  | (i, img1) :: rest, itg, gid, groups =>
    if (lookupA itg i).isSome then
      outerLoop t rest itg gid groups
    else
      let res := innerLoop img1.hash t gid rest ((i, gid) :: itg) [img1.info]
      outerLoop t rest res.2 (gid + 1)
        (if 1 < res.1.length then groups ++ [(gid, res.1)] else groups)

/-- The emitted groups in seed (insertion) order: the values of the
`groups` map.  The source reads them with `HashMap::into_values`, whose
iteration order is unspecified; `IsRunResult` below accounts for that. -/
def groupsSeedOrder (recs : List ImageWithHash) (t : Nat) : List (List ImageInfo) :=
  (outerLoop t recs.enum [] 0 []).map Prod.snd

/-- `total_duplicates` (`folder.rs` lines 185-188) computed over a given
groups vector: the sum over groups of (size − 1). -/
def totalDupSum (groups : List (List ImageInfo)) : Nat :=
  (groups.map (fun g => g.length - 1)).sum

/-- The grouping stage's `total_duplicates` for a collected record list
and threshold (the sum is invariant under the `HashMap` value order). -/
def totalDuplicatesOf (recs : List ImageWithHash) (t : Nat) : Nat :=
  totalDupSum (groupsSeedOrder recs t)

/-- The run result with the groups in canonical seed order. -/
def canonicalResult (fs : FS) (paths : List String) (t : Nat) : DuplicateResult :=
  { groups := groupsSeedOrder (hashedImages fs paths) t
    total_duplicates := totalDupSum (groupsSeedOrder (hashedImages fs paths) t)
    processed := (hashedImages fs paths).length
    errors := errorsOf fs paths }

/-- `find_duplicates` (`folder.rs` lines 99-198).  The source function
returns `Result<DuplicateResult, String>` and its body ends in
`Ok(...)` with no error path.  The groups vector of the returned value
is pinned to the canonical seed order here; `IsRunResult` captures every
order `HashMap::into_values` may produce. -/
def find_duplicates (fs : FS) (paths : List String) (threshold : Nat) :
    Except String DuplicateResult :=
  Except.ok (canonicalResult fs paths threshold)

/-- The possible return values of `find_duplicates` for one input:
`groups` is the seed-ordered group list in the iteration order of
`HashMap::into_values`, which is unspecified — so any permutation of the
seed-order list; the scalar fields are computed from it as in the
source. -/
def IsRunResult (fs : FS) (paths : List String) (t : Nat) (r : DuplicateResult) : Prop :=
  r.groups.Perm (groupsSeedOrder (hashedImages fs paths) t) ∧
  r.total_duplicates = totalDupSum r.groups ∧
  r.processed = (hashedImages fs paths).length ∧
  r.errors = errorsOf fs paths

/-- The grouping pass stated the way the specification describes it
(spec §4.3): iterate the collected records in input order; each record
not yet assigned becomes a seed and collects exactly the not-yet-assigned
records whose hash is within the threshold (inclusive) of the seed's
hash; the remaining records are processed the same way.  Every cluster
(emitted or singleton) appears, in seed order. -/
def clustersSpec (t : Nat) : List (Nat × ImageWithHash) → List (List (Nat × ImageWithHash))
  | [] => []
  | p :: rest =>
    (p :: rest.filter (fun q => decide (hdist p.2.hash q.2.hash ≤ t))) ::
      clustersSpec t (rest.filter (fun q => !decide (hdist p.2.hash q.2.hash ≤ t)))
termination_by l => l.length
decreasing_by
  exact Nat.lt_succ_of_le (List.length_filter_le _ _)

/-! ### Basic lemmas about the Hamming distance and association lookup -/

theorem hdist_self (a : Nat) : hdist a a = 0 := by
  simp [hdist]

theorem hdist_eq_zero_iff {a b : Nat} (ha : a < 2 ^ 64) (hb : b < 2 ^ 64) :
    hdist a b = 0 ↔ a = b := by
  constructor
  · intro h
    apply Nat.eq_of_testBit_eq
    intro i
    by_cases hi : i < 64
    · have hall := List.countP_eq_zero.mp h
      have := hall i (List.mem_range.mpr hi)
      simpa using this
    · have h64 : (64 : Nat) ≤ i := Nat.le_of_not_lt hi
      have hpa : a < 2 ^ i := lt_of_lt_of_le ha (Nat.pow_le_pow_right (by norm_num) h64)
      have hpb : b < 2 ^ i := lt_of_lt_of_le hb (Nat.pow_le_pow_right (by norm_num) h64)
      rw [Nat.testBit_lt_two_pow hpa, Nat.testBit_lt_two_pow hpb]
  · intro h
    subst h
    exact hdist_self a

theorem lookupA_isSome_iff (l : List (Nat × Nat)) (k : Nat) :
    (lookupA l k).isSome ↔ k ∈ l.map Prod.fst := by
  induction l with
  | nil => simp [lookupA]
  | cons p rest ih =>
    obtain ⟨a, v⟩ := p
    by_cases h : a = k
    · subst h
      simp [lookupA]
    · simp [lookupA, h, ih, Ne.symm h]

theorem lookupA_nil (k : Nat) : lookupA [] k = none := rfl

theorem length_filter_not_add (p : α → Bool) (l : List α) :
    (l.filter p).length + (l.filter (fun a => !p a)).length = l.length := by
  induction l with
  | nil => simp
  | cons a rest ih =>
    by_cases h : p a
    · simp [List.filter_cons, h, Nat.succ_add, ih]
    · simp only [Bool.not_eq_true] at h
      simp [List.filter_cons, h, ← Nat.add_assoc, ih]

/-! ### Characterizing the translated grouping loops -/

/-- The inner-loop selection predicate: not yet assigned and within the
threshold of the seed's hash. -/
def selP (itg : List (Nat × Nat)) (h1 t : Nat) (q : Nat × ImageWithHash) : Bool :=
  !(lookupA itg q.1).isSome && decide (hdist h1 q.2.hash ≤ t)

theorem innerLoop_run (h1 t gid : Nat) :
    ∀ (l : List (Nat × ImageWithHash)) (itg : List (Nat × Nat)) (members : List ImageInfo),
      (l.map Prod.fst).Nodup →
      innerLoop h1 t gid l itg members =
        (members ++ (l.filter (selP itg h1 t)).map (fun q => q.2.info),
         ((l.filter (selP itg h1 t)).map (fun q => (q.1, gid))).reverse ++ itg) := by
  intro l
  induction l with
  | nil => intro itg members _; simp [innerLoop]
  | cons p rest ih =>
    intro itg members hnd
    obtain ⟨j, img2⟩ := p
    have hj : j ∉ rest.map Prod.fst := (List.nodup_cons.mp hnd).1
    have hndr : (rest.map Prod.fst).Nodup := (List.nodup_cons.mp hnd).2
    have hcongr : ∀ itg2 : List (Nat × Nat),
        (∀ k, k ∈ itg2.map Prod.fst ↔ k = j ∨ k ∈ itg.map Prod.fst) →
        rest.filter (selP itg2 h1 t) = rest.filter (selP itg h1 t) := by
      intro itg2 hk
      apply List.filter_congr
      intro q hq
      have hqj : q.1 ≠ j := by
        intro hcontra
        exact hj (hcontra ▸ List.mem_map_of_mem Prod.fst hq)
      have hss : (lookupA itg2 q.1).isSome = (lookupA itg q.1).isSome := by
        rw [Bool.eq_iff_iff, lookupA_isSome_iff, lookupA_isSome_iff, hk]
        constructor
        · intro hor
          rcases hor with hor | hor
          · exact absurd hor hqj
          · exact hor
        · intro hin; exact Or.inr hin
      simp [selP, hss]
    by_cases hs : (lookupA itg j).isSome
    · have hc : selP itg h1 t (j, img2) = false := by
        simp [selP, hs]
      simp only [innerLoop, hs, if_true]
      rw [ih itg members hndr, List.filter_cons_of_neg (by simp [hc])]
    · have hsf : (lookupA itg j).isSome = false := by
        cases hval : lookupA itg j with
        | none => rfl
        | some v => rw [hval] at hs; simp at hs
      by_cases hnear : hdist h1 img2.hash ≤ t
      · have hc : selP itg h1 t (j, img2) = true := by
          simp [selP, hsf, hnear]
        simp only [innerLoop, hs, if_false, hnear, if_true]
        rw [ih ((j, gid) :: itg) (members ++ [img2.info]) hndr]
        have hrw := hcongr ((j, gid) :: itg) (by intro k; simp)
        rw [hrw, List.filter_cons_of_pos hc]
        simp [List.append_assoc]
      · have hc : selP itg h1 t (j, img2) = false := by
          simp [selP, hnear]
        simp only [innerLoop, hs, if_false, hnear]
        rw [ih itg members hndr, List.filter_cons_of_neg (by simp [hc])]
        simp

/-- A record is not yet assigned to any group. -/
def unasgP (itg : List (Nat × Nat)) (q : Nat × ImageWithHash) : Bool :=
  !(lookupA itg q.1).isSome

theorem bool_eq_false {b : Bool} (h : ¬b = true) : b = false := by
  cases b with
  | false => rfl
  | true => exact absurd rfl h

theorem outerLoop_run (t : Nat) :
    ∀ (l : List (Nat × ImageWithHash)) (itg : List (Nat × Nat)) (gid : Nat)
      (groups : List (Nat × List ImageInfo)),
      (l.map Prod.fst).Nodup →
      (outerLoop t l itg gid groups).map Prod.snd =
        groups.map Prod.snd ++
          ((clustersSpec t (l.filter (unasgP itg))).filter
            (fun c => decide (1 < c.length))).map (fun c => c.map (fun q => q.2.info)) := by
  intro l
  induction l with
  | nil => intro itg gid groups _; simp [outerLoop, clustersSpec]
  | cons p rest ih =>
    intro itg gid groups hnd
    obtain ⟨i, img1⟩ := p
    have hj : i ∉ rest.map Prod.fst := (List.nodup_cons.mp hnd).1
    have hndr : (rest.map Prod.fst).Nodup := (List.nodup_cons.mp hnd).2
    by_cases hs : (lookupA itg i).isSome
    · have hc : unasgP itg (i, img1) = false := by simp [unasgP, hs]
      simp only [outerLoop, hs, if_true]
      rw [ih itg gid groups hndr, List.filter_cons_of_neg (by simp [hc])]
    · have hsf : (lookupA itg i).isSome = false := bool_eq_false hs
      have hhead : unasgP itg (i, img1) = true := by simp [unasgP, hsf]
      have hinner := innerLoop_run img1.hash t gid rest ((i, gid) :: itg) [img1.info] hndr
      have hself : rest.filter (selP ((i, gid) :: itg) img1.hash t) =
          rest.filter (selP itg img1.hash t) := by
        apply List.filter_congr
        intro q hq
        have hqj : i ≠ q.1 := by
          intro hcontra
          exact hj (hcontra ▸ List.mem_map_of_mem Prod.fst hq)
        simp [selP, lookupA, hqj]
      rw [hself] at hinner
    
      have hmem_sel : ∀ q ∈ rest,
          (lookupA (((rest.filter (selP itg img1.hash t)).map
              (fun q => (q.1, gid))).reverse ++ (i, gid) :: itg) q.1).isSome = true ↔
          (q ∈ rest.filter (selP itg img1.hash t) ∨ (lookupA itg q.1).isSome = true) := by
        intro q hq
        have hqj : q.1 ≠ i := by
          intro hcontra
          exact hj (hcontra ▸ List.mem_map_of_mem Prod.fst hq)
        have hinj : ∀ x ∈ rest.filter (selP itg img1.hash t), x.1 = q.1 → x = q := by
          intro x hx hx1
          exact List.inj_on_of_nodup_map hndr (List.mem_of_mem_filter hx) hq hx1
        rw [lookupA_isSome_iff]
        constructor
        · intro hmem
          simp only [List.map_append, List.map_reverse, List.map_map, List.mem_append,
            List.mem_reverse, List.mem_map, List.map_cons, List.mem_cons,
            Function.comp] at hmem
          rcases hmem with ⟨x, hx, hx1⟩ | h1 | hmem
          · exact Or.inl (hinj x hx hx1 ▸ hx)
          · exact absurd h1 hqj
          · exact Or.inr (by rw [lookupA_isSome_iff, List.mem_map]; exact hmem)
        · intro hor
          simp only [List.map_append, List.map_reverse, List.map_map, List.mem_append,
            List.mem_reverse, List.mem_map, List.map_cons, List.mem_cons, Function.comp]
          rcases hor with hmem | hitg
          · exact Or.inl ⟨q, hmem, rfl⟩
          · exact Or.inr (Or.inr (List.mem_map.mp ((lookupA_isSome_iff itg q.1).mp hitg)))
      have hA : rest.filter (unasgP (((rest.filter (selP itg img1.hash t)).map
              (fun q => (q.1, gid))).reverse ++ (i, gid) :: itg)) =
          (rest.filter (unasgP itg)).filter
            (fun q => !decide (hdist img1.hash q.2.hash ≤ t)) := by
        rw [List.filter_filter]
        apply List.filter_congr
        intro q hq
        have hiff := hmem_sel q hq
        cases hu : (lookupA itg q.1).isSome with
        | true =>
          have hT : (lookupA (((rest.filter (selP itg img1.hash t)).map
              (fun q => (q.1, gid))).reverse ++ (i, gid) :: itg) q.1).isSome = true :=
            hiff.mpr (Or.inr hu)
          simp [unasgP, hT, hu]
        | false =>
          by_cases hnear : hdist img1.hash q.2.hash ≤ t
          · have hqsel : q ∈ rest.filter (selP itg img1.hash t) :=
              List.mem_filter.mpr ⟨hq, by simp [selP, unasgP, hu, hnear]⟩
            have hT : (lookupA (((rest.filter (selP itg img1.hash t)).map
                (fun q => (q.1, gid))).reverse ++ (i, gid) :: itg) q.1).isSome = true :=
              hiff.mpr (Or.inl hqsel)
            simp [unasgP, hT, hu, hnear]
          · have hF : (lookupA (((rest.filter (selP itg img1.hash t)).map
                (fun q => (q.1, gid))).reverse ++ (i, gid) :: itg) q.1).isSome = false := by
              apply bool_eq_false
              intro hcontra
              rcases hiff.mp hcontra with hsel | hitg
              · have hsel2 : selP itg img1.hash t q = true := (List.mem_filter.mp hsel).2
                simp [selP, unasgP, hu, hnear] at hsel2
              · rw [hitg] at hu; cases hu
            simp [unasgP, hF, hu, hnear]
      have hC : (rest.filter (unasgP itg)).filter
            (fun q => decide (hdist img1.hash q.2.hash ≤ t)) =
          rest.filter (selP itg img1.hash t) := by
        rw [List.filter_filter]
        apply List.filter_congr
        intro q hq
        simp [selP, unasgP, Bool.and_comm]
      simp only [outerLoop]
      rw [if_neg hs]
      simp only [hinner]
      rw [ih (((rest.filter (selP itg img1.hash t)).map
            (fun q => (q.1, gid))).reverse ++ (i, gid) :: itg) (gid + 1) _ hndr]
      rw [hA, List.filter_cons_of_pos hhead]
      simp only [clustersSpec, hC]
      by_cases hlen : 1 < ([img1.info] ++
          (rest.filter (selP itg img1.hash t)).map (fun q => q.2.info)).length
      · have hlen2 : decide (1 < ((i, img1) ::
            rest.filter (selP itg img1.hash t)).length) = true := by
          apply decide_eq_true
          simpa using hlen
        rw [if_pos hlen, List.filter_cons_of_pos (p := fun c : List (Nat × ImageWithHash) => decide (1 < c.length)) hlen2]
        simp [List.append_assoc]
      · have hlen2 : ¬decide (1 < ((i, img1) ::
            rest.filter (selP itg img1.hash t)).length) = true := by
          intro hcontra
          apply hlen
          simpa using of_decide_eq_true hcontra
        rw [if_neg hlen, List.filter_cons_of_neg (p := fun c : List (Nat × ImageWithHash) => decide (1 < c.length)) hlen2]

/-- The translated grouping loops compute exactly the spec-style pass:
the emitted groups, in seed order, are the clusters with more than one
member, projected to their `ImageInfo`s. -/
theorem groupsSeedOrder_eq (recs : List ImageWithHash) (t : Nat) :
    groupsSeedOrder recs t =
      ((clustersSpec t recs.enum).filter (fun c => decide (1 < c.length))).map
        (fun c => c.map (fun q => q.2.info)) := by
  have hnd : (recs.enum.map Prod.fst).Nodup := by
    rw [List.enum_map_fst]; exact List.nodup_range _
  have h := outerLoop_run t recs.enum [] 0 [] hnd
  rw [show (unasgP ([] : List (Nat × Nat))) = (fun _ => true) from funext fun q => rfl,
    List.filter_true] at h
  simpa [groupsSeedOrder] using h

/-! ### Structural facts about the spec-style clustering pass -/

theorem clustersSpec_sub (t : Nat) (l : List (Nat × ImageWithHash)) :
    ∀ c ∈ clustersSpec t l, ∀ q ∈ c, q ∈ l := by
  induction l using clustersSpec.induct t with
  | case1 => simp [clustersSpec]
  | case2 p rest ih =>
    intro c hc q hq
    simp only [clustersSpec, List.mem_cons] at hc
    rcases hc with hc | hc
    · subst hc
      rcases List.mem_cons.mp hq with h | h
      · simp [h]
      · exact List.mem_cons_of_mem _ (List.mem_of_mem_filter h)
    · exact List.mem_cons_of_mem _ (List.mem_of_mem_filter (ih c hc q hq))

theorem clustersSpec_nonempty (t : Nat) (l : List (Nat × ImageWithHash)) :
    ∀ c ∈ clustersSpec t l, c ≠ [] := by
  induction l using clustersSpec.induct t with
  | case1 => simp [clustersSpec]
  | case2 p rest ih =>
    intro c hc
    simp only [clustersSpec, List.mem_cons] at hc
    rcases hc with hc | hc
    · subst hc; simp
    · exact ih c hc

set_option maxHeartbeats 1000000 in
/-- The clusters partition the input: their concatenation is a
permutation of the record list. -/
theorem clustersSpec_flatten_perm (t : Nat) (l : List (Nat × ImageWithHash)) :
    (clustersSpec t l).flatten.Perm l := by
  induction l using clustersSpec.induct t with
  | case1 => simp [clustersSpec]
  | case2 p rest ih =>
    simp only [clustersSpec, List.flatten_cons, List.cons_append]
    have h1 := List.Perm.append_left
      (rest.filter (fun q => decide (hdist p.2.hash q.2.hash ≤ t))) ih
    exact (h1.cons p).trans
      ((List.filter_append_perm (fun q => decide (hdist p.2.hash q.2.hash ≤ t)) rest).cons p)

/-- Counting: the sum over all clusters of (size − 1) plus the number of
clusters is the number of records. -/
theorem clustersSpec_count (t : Nat) (l : List (Nat × ImageWithHash)) :
    ((clustersSpec t l).map (fun c => c.length - 1)).sum + (clustersSpec t l).length
      = l.length := by
  induction l using clustersSpec.induct t with
  | case1 => simp [clustersSpec]
  | case2 p rest ih =>
    simp only [clustersSpec, List.map_cons, List.sum_cons, List.length_cons]
    have hfl := length_filter_not_add (fun q => decide (hdist p.2.hash q.2.hash ≤ t)) rest
    simp only [List.length_cons, Nat.add_sub_cancel]
    omega

/-- A seed's hash does not occur among the records it leaves behind. -/
theorem hash_notmem_far (t : Nat) (p : Nat × ImageWithHash)
    (rest : List (Nat × ImageWithHash)) :
    p.2.hash ∉ ((rest.filter (fun q => !decide (hdist p.2.hash q.2.hash ≤ t))).map
      (fun q => q.2.hash)).toFinset := by
  intro hcontra
  rw [List.mem_toFinset, List.mem_map] at hcontra
  obtain ⟨x, hx, hxh⟩ := hcontra
  have hfar : ¬hdist p.2.hash x.2.hash ≤ t := by
    simpa using (List.mem_filter.mp hx).2
  apply hfar
  rw [hxh, hdist_self]
  exact Nat.zero_le t

/-- The number of clusters never exceeds the number of distinct hash
values: the seeds carry pairwise distinct hashes. -/
theorem clustersSpec_length_le (t : Nat) (l : List (Nat × ImageWithHash)) :
    (clustersSpec t l).length ≤ ((l.map (fun q => q.2.hash)).toFinset).card := by
  induction l using clustersSpec.induct t with
  | case1 => simp [clustersSpec]
  | case2 p rest ih =>
    simp only [clustersSpec, List.length_cons]
    have hsub : insert p.2.hash
        ((rest.filter (fun q => !decide (hdist p.2.hash q.2.hash ≤ t))).map
          (fun q => q.2.hash)).toFinset ⊆
        (((p :: rest).map (fun q => q.2.hash)).toFinset) := by
      intro a ha
      rw [Finset.mem_insert] at ha
      simp only [List.map_cons, List.toFinset_cons, Finset.mem_insert,
        List.mem_toFinset, List.mem_map] at *
      rcases ha with ha | ⟨x, hx, hxh⟩
      · exact Or.inl ha
      · exact Or.inr ⟨x, List.mem_of_mem_filter hx, hxh⟩
    calc (clustersSpec t (rest.filter
        (fun q => !decide (hdist p.2.hash q.2.hash ≤ t)))).length + 1
        ≤ ((rest.filter (fun q => !decide (hdist p.2.hash q.2.hash ≤ t))).map
            (fun q => q.2.hash)).toFinset.card + 1 := Nat.add_le_add_right ih 1
      _ = (insert p.2.hash ((rest.filter
            (fun q => !decide (hdist p.2.hash q.2.hash ≤ t))).map
              (fun q => q.2.hash)).toFinset).card :=
          (Finset.card_insert_of_not_mem (hash_notmem_far t p rest)).symm
      _ ≤ _ := Finset.card_le_card hsub

/-- At threshold 0 the clusters are exactly the equal-hash classes: their
number is the number of distinct hash values (hashes being 64-bit). -/
theorem clustersSpec_zero_length (l : List (Nat × ImageWithHash)) :
    (∀ q ∈ l, q.2.hash < 2 ^ 64) →
    (clustersSpec 0 l).length = ((l.map (fun q => q.2.hash)).toFinset).card := by
  induction l using clustersSpec.induct 0 with
  | case1 => intro _; simp [clustersSpec]
  | case2 p rest ih =>
    intro hb
    have hbp : p.2.hash < 2 ^ 64 := hb p (List.mem_cons_self p rest)
    have hbrest : ∀ q ∈ rest, q.2.hash < 2 ^ 64 :=
      fun q hq => hb q (List.mem_cons_of_mem p hq)
    have hset : (((p :: rest).map (fun q => q.2.hash)).toFinset) =
        insert p.2.hash ((rest.filter
          (fun q => !decide (hdist p.2.hash q.2.hash ≤ 0))).map
            (fun q => q.2.hash)).toFinset := by
      ext a
      simp only [List.map_cons, List.toFinset_cons, Finset.mem_insert,
        List.mem_toFinset, List.mem_map, List.mem_filter]
      constructor
      · rintro (ha | ⟨x, hx, hxh⟩)
        · exact Or.inl ha
        · by_cases heq : x.2.hash = p.2.hash
          · exact Or.inl (by rw [← hxh]; exact heq)
          · refine Or.inr ⟨x, ⟨hx, ?_⟩, hxh⟩
            have hne : hdist p.2.hash x.2.hash ≠ 0 := by
              intro h0
              exact heq ((hdist_eq_zero_iff hbp (hbrest x hx)).mp h0).symm
            simp [Nat.le_zero, hne]
      · rintro (ha | ⟨x, ⟨hx, _⟩, hxh⟩)
        · exact Or.inl ha
        · exact Or.inr ⟨x, hx, hxh⟩
    rw [hset]
    simp only [clustersSpec, List.length_cons]
    rw [Finset.card_insert_of_not_mem (hash_notmem_far 0 p rest),
      ih (fun q hq => hbrest q (List.mem_of_mem_filter hq))]

/-- At threshold 0, all members of one cluster carry the same hash
(hashes being 64-bit values). -/
theorem clustersSpec_zero_hash (l : List (Nat × ImageWithHash)) :
    (∀ q ∈ l, q.2.hash < 2 ^ 64) →
    ∀ c ∈ clustersSpec 0 l, ∀ x ∈ c, ∀ y ∈ c, x.2.hash = y.2.hash := by
  induction l using clustersSpec.induct 0 with
  | case1 => intro _; simp [clustersSpec]
  | case2 p rest ih =>
    intro hb c hc x hx y hy
    simp only [clustersSpec, List.mem_cons] at hc
    rcases hc with hc | hc
    · subst hc
      have hmem : ∀ z ∈ p :: rest.filter
          (fun q => decide (hdist p.2.hash q.2.hash ≤ 0)), z.2.hash = p.2.hash := by
        intro z hz
        rcases List.mem_cons.mp hz with hz1 | hz1
        · rw [hz1]
        · have h1 := (List.mem_filter.mp hz1).2
          have h2 : hdist p.2.hash z.2.hash = 0 := Nat.le_zero.mp (of_decide_eq_true h1)
          exact ((hdist_eq_zero_iff (hb p (List.mem_cons_self p rest))
            (hb z (List.mem_cons_of_mem p (List.mem_of_mem_filter hz1)))).mp h2).symm
      rw [hmem x hx, hmem y hy]
    · exact ih (fun q hq => hb q (List.mem_cons_of_mem p (List.mem_of_mem_filter hq)))
        c hc x hx y hy

/-- Dropping the singleton clusters does not change the sum of
(size − 1): singletons contribute zero. -/
theorem sum_sub_one_filter {α : Type} (L : List (List α)) (h : ∀ c ∈ L, c ≠ []) :
    ((L.filter (fun c => decide (1 < c.length))).map (fun c => c.length - 1)).sum =
    (L.map (fun c => c.length - 1)).sum := by
  induction L with
  | nil => simp
  | cons c Lt ih =>
    have hne := h c (List.mem_cons_self c Lt)
    have hih := ih (fun d hd => h d (List.mem_cons_of_mem c hd))
    by_cases hlen : 1 < c.length
    · rw [List.filter_cons_of_pos (p := fun c : List α => decide (1 < c.length))
        (decide_eq_true hlen)]
      simp only [List.map_cons, List.sum_cons]
      rw [hih]
    · rw [List.filter_cons_of_neg (p := fun c : List α => decide (1 < c.length))
        (by simpa using hlen)]
      have hc1 : c.length = 1 := by
        have h0 : c.length ≠ 0 := fun h0 => hne (List.length_eq_zero.mp h0)
        omega
      simp only [List.map_cons, List.sum_cons, hc1, Nat.sub_self, Nat.zero_add]
      exact hih

theorem totalDupSum_map_info (L : List (List (Nat × ImageWithHash))) :
    totalDupSum (L.map (fun c => c.map (fun q => q.2.info))) =
    (L.map (fun c => c.length - 1)).sum := by
  rw [totalDupSum, List.map_map]
  apply congrArg List.sum
  apply List.map_congr_left
  intro c _
  simp

/-- The grouping stage's `total_duplicates` counts the records that were
absorbed into an earlier seed's group: records minus clusters. -/
theorem totalDuplicatesOf_add_clusters (recs : List ImageWithHash) (t : Nat) :
    totalDuplicatesOf recs t + (clustersSpec t recs.enum).length = recs.length := by
  have h1 : totalDuplicatesOf recs t =
      ((clustersSpec t recs.enum).map (fun c => c.length - 1)).sum := by
    rw [totalDuplicatesOf, groupsSeedOrder_eq, totalDupSum_map_info,
      sum_sub_one_filter _ (clustersSpec_nonempty t recs.enum)]
  rw [h1]
  have h2 := clustersSpec_count t recs.enum
  rwa [List.enum_length] at h2

/-! ### Pipeline accounting lemmas -/

theorem mem_of_enum_mem {α : Type} {l : List α} {p : Nat × α} (h : p ∈ l.enum) :
    p.2 ∈ l := by
  rw [List.mem_enum_iff_getElem?] at h
  obtain ⟨hlt, hget⟩ := List.getElem?_eq_some.mp h
  rw [← hget]
  exact List.getElem_mem hlt

/-- A path either yields a record and no error tick, or no record and
one error tick. -/
theorem hashPath_ticks (fs : FS) (p : String) :
    (hashPath fs p = none ∧ pathErrorTicks fs p = 1) ∨
    ((hashPath fs p).isSome ∧ pathErrorTicks fs p = 0) := by
  cases h : load_image fs p with
  | none => exact Or.inl ⟨by simp [hashPath, h], by simp [pathErrorTicks, h]⟩
  | some img =>
    exact Or.inr ⟨by simp [hashPath, h, compute_perceptual_hash],
      by simp [pathErrorTicks, h, compute_perceptual_hash]⟩

theorem errorsOf_eq_countP (fs : FS) (paths : List String) :
    errorsOf fs paths = paths.countP (fun p => (hashPath fs p).isNone) := by
  induction paths with
  | nil => simp [errorsOf]
  | cons p rest ih =>
    simp only [errorsOf, List.map_cons, List.sum_cons, List.countP_cons] at *
    rcases hashPath_ticks fs p with ⟨h1, h2⟩ | ⟨h1, h2⟩
    · rw [h2, ih, h1]
      simp [Nat.add_comm]
    · rw [h2, ih]
      rw [Option.isSome_iff_exists] at h1
      obtain ⟨r, hr⟩ := h1
      simp [hr]

theorem length_filterMap_add_countP {α β : Type} (f : α → Option β) (l : List α) :
    (l.filterMap f).length + l.countP (fun a => (f a).isNone) = l.length := by
  induction l with
  | nil => simp
  | cons a rest ih =>
    cases h : f a with
    | none => simp [List.filterMap_cons, h, List.countP_cons, ← ih]; omega
    | some b => simp [List.filterMap_cons, h, List.countP_cons, ← ih]; omega

/-- The canonical (seed-ordered) result is a possible run result. -/
theorem canonicalResult_isRun (fs : FS) (paths : List String) (t : Nat) :
    IsRunResult fs paths t (canonicalResult fs paths t) :=
  ⟨List.Perm.refl _, rfl, rfl, rfl⟩

/-- Every emitted group has at least two members. -/
theorem groupsSeedOrder_two_le (recs : List ImageWithHash) (t : Nat) :
    ∀ g ∈ groupsSeedOrder recs t, 2 ≤ g.length := by
  rw [groupsSeedOrder_eq]
  intro g hg
  rw [List.mem_map] at hg
  obtain ⟨c, hc, hcg⟩ := hg
  have h2 : 1 < c.length := of_decide_eq_true (List.mem_filter.mp hc).2
  rw [← hcg, List.length_map]
  omega

theorem sum_sub_one_add_length {α : Type} (G : List (List α))
    (h : ∀ g ∈ G, 1 ≤ g.length) :
    (G.map (fun g => g.length - 1)).sum + G.length = (G.map List.length).sum := by
  induction G with
  | nil => simp
  | cons g Gt ih =>
    have h1 := h g (List.mem_cons_self g Gt)
    have hih := ih (fun d hd => h d (List.mem_cons_of_mem g hd))
    simp only [List.map_cons, List.sum_cons, List.length_cons]
    omega

/-! ### Concrete test environment for witnesses and counterexamples -/

/-- A 9 × 8 constant image: its gradient hash is 0. -/
def imgFlat : Image := ⟨9, 8, List.replicate 72 0⟩

/-- A 9 × 8 image increasing left to right: every gradient bit is set. -/
def imgRamp : Image := ⟨9, 8, (List.range 8).flatMap (fun _ => List.range 9)⟩

/-- A small filesystem: `"a"`, `"b"` decode to the flat image, `"c"`,
`"d"` to the ramp image, everything else is unreadable; metadata reads
always fail. -/
def fsAB : FS :=
  ⟨fun p => if p = "a" ∨ p = "b" then some imgFlat
    else if p = "c" ∨ p = "d" then some imgRamp else none,
   fun _ => none⟩

def infoA : ImageInfo := ⟨"a", "a", 0⟩

def infoB : ImageInfo := ⟨"b", "b", 0⟩

def infoC : ImageInfo := ⟨"c", "c", 0⟩

def infoD : ImageInfo := ⟨"d", "d", 0⟩

/-- The two-group output in seed order. -/
def res1 : DuplicateResult := ⟨[[infoA, infoB], [infoC, infoD]], 2, 4, 0⟩

/-- The same two groups in the opposite `into_values` order. -/
def res2 : DuplicateResult := ⟨[[infoC, infoD], [infoA, infoB]], 2, 4, 0⟩

/-- Four records refuting threshold monotonicity: hashes are bit blocks
with pairwise Hamming distances d(e,s)=10, d(e,x)=15, d(e,y)=16,
d(s,x)=5, d(s,y)=6, d(x,y)=11. -/
def c6Recs : List ImageWithHash :=
  [⟨⟨"e", "e", 0⟩, 1023⟩, ⟨⟨"s", "s", 0⟩, 0⟩,
   ⟨⟨"x", "x", 0⟩, 31744⟩, ⟨⟨"y", "y", 0⟩, 2064384⟩]

/-! ### The claims -/

/-- C1: for every collected list of successfully hashed records and every
threshold, the grouping stage iterates the records in input order; each
record not yet assigned becomes a seed and collects exactly the
not-yet-assigned records whose hash is within Hamming distance `t`
(inclusive) of the seed's hash (this is `clustersSpec`, stated from the
spec's words); a group is emitted iff it has more than one member; and at
threshold 0 all members of one cluster have bit-identical hashes. -/
theorem c1_grouping (recs : List ImageWithHash) (t : Nat)
    (hb : ∀ r ∈ recs, r.hash < 2 ^ 64) :
    groupsSeedOrder recs t =
      ((clustersSpec t recs.enum).filter (fun c => decide (1 < c.length))).map
        (fun c => c.map (fun q => q.2.info)) ∧
    (∀ c ∈ clustersSpec 0 recs.enum, ∀ x ∈ c, ∀ y ∈ c, x.2.hash = y.2.hash) :=
  ⟨groupsSeedOrder_eq recs t,
   clustersSpec_zero_hash recs.enum (fun q hq => hb q.2 (mem_of_enum_mem hq))⟩

theorem c1_grouping_witness :
    (∀ r ∈ c6Recs, r.hash < 2 ^ 64) ∧
    (groupsSeedOrder c6Recs 6 =
      ((clustersSpec 6 c6Recs.enum).filter (fun c => decide (1 < c.length))).map
        (fun c => c.map (fun q => q.2.info)) ∧
    (∀ c ∈ clustersSpec 0 c6Recs.enum, ∀ x ∈ c, ∀ y ∈ c, x.2.hash = y.2.hash)) :=
  ⟨by decide, c1_grouping c6Recs 6 (by decide)⟩

/-- C2: `find_duplicates` never returns an error for the batch (its body
ends in `Ok`), and with `K` the number of paths that fail to load or
hash, every possible result has `errors = K`, `processed = N − K`, and
`processed + errors = N`. -/
theorem c2_error_accounting (fs : FS) (paths : List String) (t : Nat)
    (r : DuplicateResult) (h : IsRunResult fs paths t r) :
    find_duplicates fs paths t = Except.ok (canonicalResult fs paths t) ∧
    r.errors = paths.countP (fun p => (hashPath fs p).isNone) ∧
    r.processed = paths.length - r.errors ∧
    r.processed + r.errors = paths.length := by
  obtain ⟨-, -, hp, he⟩ := h
  have hcount : (hashedImages fs paths).length +
      paths.countP (fun p => (hashPath fs p).isNone) = paths.length :=
    length_filterMap_add_countP (hashPath fs) paths
  have he2 : r.errors = paths.countP (fun p => (hashPath fs p).isNone) := by
    rw [he, errorsOf_eq_countP]
  refine ⟨rfl, he2, ?_, ?_⟩
  · rw [hp, he2]; omega
  · rw [hp, he2]; omega

theorem c2_error_accounting_witness :
    IsRunResult fsAB ["a", "nope", "c"] 0 (canonicalResult fsAB ["a", "nope", "c"] 0) ∧
    (find_duplicates fsAB ["a", "nope", "c"] 0 =
        Except.ok (canonicalResult fsAB ["a", "nope", "c"] 0) ∧
     (canonicalResult fsAB ["a", "nope", "c"] 0).errors =
        (["a", "nope", "c"] : List String).countP (fun p => (hashPath fsAB p).isNone) ∧
     (canonicalResult fsAB ["a", "nope", "c"] 0).processed =
        (["a", "nope", "c"] : List String).length -
          (canonicalResult fsAB ["a", "nope", "c"] 0).errors ∧
     (canonicalResult fsAB ["a", "nope", "c"] 0).processed +
        (canonicalResult fsAB ["a", "nope", "c"] 0).errors =
        (["a", "nope", "c"] : List String).length) :=
  ⟨canonicalResult_isRun fsAB ["a", "nope", "c"] 0,
   c2_error_accounting fsAB ["a", "nope", "c"] 0 _
     (canonicalResult_isRun fsAB ["a", "nope", "c"] 0)⟩

/-- C3: every emitted group has at least 2 members, and no record is in
two groups: the clusters' index lists are pairwise disjoint, and the
clusters partition the collected record list. -/
theorem c3_group_invariants (fs : FS) (paths : List String) (t : Nat)
    (r : DuplicateResult) (h : IsRunResult fs paths t r) :
    (∀ g ∈ r.groups, 2 ≤ g.length) ∧
    ((clustersSpec t (hashedImages fs paths).enum).map
      (fun c => c.map Prod.fst)).Pairwise List.Disjoint ∧
    (clustersSpec t (hashedImages fs paths).enum).flatten.Perm
      (hashedImages fs paths).enum := by
  obtain ⟨hg, -, -, -⟩ := h
  refine ⟨?_, ?_, clustersSpec_flatten_perm t _⟩
  · intro g hgm
    exact groupsSeedOrder_two_le _ t g (hg.subset hgm)
  · have hnd : ((hashedImages fs paths).enum.map Prod.fst).Nodup := by
      rw [List.enum_map_fst]; exact List.nodup_range _
    have hperm := (clustersSpec_flatten_perm t (hashedImages fs paths).enum).map Prod.fst
    have hnd2 : ((clustersSpec t (hashedImages fs paths).enum).flatten.map Prod.fst).Nodup :=
      hperm.symm.nodup hnd
    rw [List.map_flatten] at hnd2
    exact (List.nodup_flatten.mp hnd2).2

theorem c3_group_invariants_witness :
    IsRunResult fsAB ["a", "b", "c", "d"] 0 (canonicalResult fsAB ["a", "b", "c", "d"] 0) ∧
    ((∀ g ∈ (canonicalResult fsAB ["a", "b", "c", "d"] 0).groups, 2 ≤ g.length) ∧
     ((clustersSpec 0 (hashedImages fsAB ["a", "b", "c", "d"]).enum).map
       (fun c => c.map Prod.fst)).Pairwise List.Disjoint ∧
     (clustersSpec 0 (hashedImages fsAB ["a", "b", "c", "d"]).enum).flatten.Perm
       (hashedImages fsAB ["a", "b", "c", "d"]).enum) :=
  ⟨canonicalResult_isRun fsAB ["a", "b", "c", "d"] 0,
   c3_group_invariants fsAB ["a", "b", "c", "d"] 0 _
     (canonicalResult_isRun fsAB ["a", "b", "c", "d"] 0)⟩

/-- C4: `total_duplicates` equals the sum over emitted groups of
(group size − 1): it counts the extra copies, and adding the number of
groups recovers the total number of grouped members. -/
theorem c4_total_duplicates (fs : FS) (paths : List String) (t : Nat)
    (r : DuplicateResult) (h : IsRunResult fs paths t r) :
    r.total_duplicates = (r.groups.map (fun g => g.length - 1)).sum ∧
    r.total_duplicates + r.groups.length = (r.groups.map List.length).sum := by
  obtain ⟨hg, ht, -, -⟩ := h
  have h2 : ∀ g ∈ r.groups, 1 ≤ g.length := by
    intro g hgm
    have := groupsSeedOrder_two_le _ t g (hg.subset hgm)
    omega
  refine ⟨ht, ?_⟩
  rw [ht]
  exact sum_sub_one_add_length r.groups h2

theorem c4_total_duplicates_witness :
    IsRunResult fsAB ["a", "b", "c"] 0 (canonicalResult fsAB ["a", "b", "c"] 0) ∧
    ((canonicalResult fsAB ["a", "b", "c"] 0).total_duplicates =
      ((canonicalResult fsAB ["a", "b", "c"] 0).groups.map (fun g => g.length - 1)).sum ∧
     (canonicalResult fsAB ["a", "b", "c"] 0).total_duplicates +
      (canonicalResult fsAB ["a", "b", "c"] 0).groups.length =
      ((canonicalResult fsAB ["a", "b", "c"] 0).groups.map List.length).sum) :=
  ⟨canonicalResult_isRun fsAB ["a", "b", "c"] 0,
   c4_total_duplicates fsAB ["a", "b", "c"] 0 _
     (canonicalResult_isRun fsAB ["a", "b", "c"] 0)⟩

/-- C6 counterexample: threshold monotonicity fails.  On `c6Recs`, at
threshold 6 the seed `s` groups `{s, x, y}` (`total_duplicates = 2`);
at the larger threshold 10 the earlier seed `e` absorbs `s`, leaving
`x` and `y` (distance 11) ungrouped (`total_duplicates = 1`). -/
theorem c6_threshold_cex :
    6 ≤ 10 ∧ totalDuplicatesOf c6Recs 6 = 2 ∧ totalDuplicatesOf c6Recs 10 = 1 ∧
    ¬totalDuplicatesOf c6Recs 6 ≤ totalDuplicatesOf c6Recs 10 := by decide

/-- C6 amended: monotonicity does hold when the smaller threshold is 0 —
for any fixed records, `total_duplicates` at any threshold is at least
the value at threshold 0 (seeds at any threshold carry pairwise distinct
hashes); for general `0 < T1 ≤ T2` it can fail (see the
counterexample). -/
theorem c6_threshold_amended (recs : List ImageWithHash) (t : Nat)
    (hb : ∀ r ∈ recs, r.hash < 2 ^ 64) :
    totalDuplicatesOf recs 0 ≤ totalDuplicatesOf recs t := by
  have h0 := totalDuplicatesOf_add_clusters recs 0
  have ht := totalDuplicatesOf_add_clusters recs t
  have hle := clustersSpec_length_le t recs.enum
  have heq := clustersSpec_zero_length recs.enum
    (fun q hq => hb q.2 (mem_of_enum_mem hq))
  omega

theorem c6_threshold_amended_witness :
    (∀ r ∈ c6Recs, r.hash < 2 ^ 64) ∧
    totalDuplicatesOf c6Recs 0 ≤ totalDuplicatesOf c6Recs 10 :=
  ⟨by decide, c6_threshold_amended c6Recs 10 (by decide)⟩

set_option maxRecDepth 40000 in
/-- C7 counterexample: the groups vector is read out of a `HashMap` by
`into_values`, whose iteration order is unspecified, so two runs on the
same input may return the same two groups in different orders: `res1`
and `res2` are both possible outputs and differ. -/
theorem c7_determinism_cex :
    IsRunResult fsAB ["a", "b", "c", "d"] 0 res1 ∧
    IsRunResult fsAB ["a", "b", "c", "d"] 0 res2 ∧ res1 ≠ res2 :=
  ⟨⟨by decide, by decide, by decide, by decide⟩,
   ⟨by decide, by decide, by decide, by decide⟩, by decide⟩

/-- C7 amended: detection is deterministic up to the order of the groups
vector: any two possible outputs for the same input have the same groups
up to permutation (each group's member list itself is fixed, in input
order) and identical `total_duplicates`, `processed` and `errors`. -/
theorem c7_determinism_amended (fs : FS) (paths : List String) (t : Nat)
    (r1 r2 : DuplicateResult)
    (h1 : IsRunResult fs paths t r1) (h2 : IsRunResult fs paths t r2) :
    r1.groups.Perm r2.groups ∧
    r1.total_duplicates = r2.total_duplicates ∧
    r1.processed = r2.processed ∧ r1.errors = r2.errors := by
  have hp : r1.groups.Perm r2.groups := h1.1.trans h2.1.symm
  refine ⟨hp, ?_, ?_, ?_⟩
  · rw [h1.2.1, h2.2.1]
    exact List.Perm.sum_eq (hp.map _)
  · rw [h1.2.2.1, h2.2.2.1]
  · rw [h1.2.2.2, h2.2.2.2]

theorem c7_determinism_amended_witness :
    IsRunResult fsAB ["a", "b"] 0 (canonicalResult fsAB ["a", "b"] 0) ∧
    ((canonicalResult fsAB ["a", "b"] 0).groups.Perm
      (canonicalResult fsAB ["a", "b"] 0).groups ∧
     (canonicalResult fsAB ["a", "b"] 0).total_duplicates =
      (canonicalResult fsAB ["a", "b"] 0).total_duplicates ∧
     (canonicalResult fsAB ["a", "b"] 0).processed =
      (canonicalResult fsAB ["a", "b"] 0).processed ∧
     (canonicalResult fsAB ["a", "b"] 0).errors =
      (canonicalResult fsAB ["a", "b"] 0).errors) :=
  ⟨canonicalResult_isRun fsAB ["a", "b"] 0,
   c7_determinism_amended fsAB ["a", "b"] 0 _ _
     (canonicalResult_isRun fsAB ["a", "b"] 0)
     (canonicalResult_isRun fsAB ["a", "b"] 0)⟩

set_option maxRecDepth 40000 in
/-- C8 counterexample: a path whose metadata read fails is NOT dropped
and does NOT increment the error counter: under `fsAB` every metadata
read fails, yet `"a"` still decodes, hashes, and yields a record with
`size_bytes = 0` (`unwrap_or(0)`), with zero error ticks. -/
theorem c8_metadata_cex :
    fsAB.metadata "a" = none ∧
    hashPath fsAB "a" = some ⟨⟨"a", "a", 0⟩, 0⟩ ∧
    pathErrorTicks fsAB "a" = 0 ∧
    errorsOf fsAB ["a"] = 0 ∧
    hashedImages fsAB ["a"] ≠ [] := by decide

/-- C8 amended: an unreadable file or a decode failure (a `load_image`
error) drops the path and ticks the error counter exactly once; a
successfully loaded path always yields a record and no tick — a metadata
failure does not drop it, the record is emitted with `size_bytes = 0`. -/
theorem c8_error_paths_amended (fs : FS) (p : String) :
    (load_image fs p = none → hashPath fs p = none ∧ pathErrorTicks fs p = 1) ∧
    (∀ img, load_image fs p = some img →
      hashPath fs p = some ⟨⟨p, fileNameOf p,
        ((fs.metadata p).map Prod.fst).getD 0⟩, gradientHash img⟩ ∧
      pathErrorTicks fs p = 0) ∧
    (fs.metadata p = none → ∀ img, load_image fs p = some img →
      hashPath fs p = some ⟨⟨p, fileNameOf p, 0⟩, gradientHash img⟩) := by
  refine ⟨?_, ?_, ?_⟩
  · intro h
    exact ⟨by simp [hashPath, h], by simp [pathErrorTicks, h]⟩
  · intro img h
    exact ⟨by simp [hashPath, h, compute_perceptual_hash],
      by simp [pathErrorTicks, h, compute_perceptual_hash]⟩
  · intro hm img h
    simp [hashPath, h, hm, compute_perceptual_hash]

theorem c8_error_paths_amended_witness :
    (load_image fsAB "nope" = none ∧
      (hashPath fsAB "nope" = none ∧ pathErrorTicks fsAB "nope" = 1)) ∧
    (fsAB.metadata "a" = none ∧ load_image fsAB "a" = some imgFlat ∧
      hashPath fsAB "a" = some ⟨⟨"a", fileNameOf "a", 0⟩, gradientHash imgFlat⟩) :=
  ⟨⟨by decide, (c8_error_paths_amended fsAB "nope").1 (by decide)⟩,
   ⟨rfl, by decide,
    (c8_error_paths_amended fsAB "a").2.2 rfl imgFlat (by decide)⟩⟩

/-- Bounding the resized dimensions: they fit within 512 × 512. -/
theorem resizeDims_le (w h : Nat) (hcond : 512 < w ∨ 512 < h) :
    (resizeDims w h 512 512).1 ≤ 512 ∧ (resizeDims w h 512 512).2 ≤ 512 := by
  rw [resizeDims]
  by_cases hcase : h * 512 ≤ w * 512
  · rw [if_pos hcase]
    have hhw : h ≤ w := Nat.le_of_mul_le_mul_right hcase (by norm_num)
    have hw0 : 0 < w := by rcases hcond with hc | hc <;> omega
    refine ⟨le_refl 512, ?_⟩
    have h1 : natRound (h * 512) w ≤ 512 := by
      rw [natRound]
      calc (2 * (h * 512) + w) / (2 * w) ≤ (w * 1025) / (2 * w) := by
            apply Nat.div_le_div_right; omega
        _ = 1025 / 2 := by rw [Nat.mul_comm 2 w, Nat.mul_div_mul_left _ _ hw0]
        _ = 512 := by norm_num
    exact max_le (by norm_num) h1
  · rw [if_neg hcase]
    have hwh : w ≤ h := by
      have := Nat.lt_of_not_le hcase
      have h2 : h * 512 ≤ h * 512 := le_refl _
      omega
    have hh0 : 0 < h := by rcases hcond with hc | hc <;> omega
    refine ⟨?_, le_refl 512⟩
    have h1 : natRound (w * 512) h ≤ 512 := by
      rw [natRound]
      calc (2 * (w * 512) + h) / (2 * h) ≤ (h * 1025) / (2 * h) := by
            apply Nat.div_le_div_right; omega
        _ = 1025 / 2 := by rw [Nat.mul_comm 2 h, Nat.mul_div_mul_left _ _ hh0]
        _ = 512 := by norm_num
    exact max_le (by norm_num) h1

/-- C9: `load_image`'s scaling step downscales (to fit within 512 × 512,
with the `Nearest` filter) exactly when the source width or height
exceeds 512; an image with both dimensions at most 512 is returned
unmodified. -/
theorem c9_downscale (img : Image) :
    (img.width ≤ 512 ∧ img.height ≤ 512 → scale512 img = img) ∧
    (512 < img.width ∨ 512 < img.height →
      scale512 img = resizeNearest img 512 512 ∧
      (scale512 img).width ≤ 512 ∧ (scale512 img).height ≤ 512) := by
  constructor
  · rintro ⟨hw, hh⟩
    have hcond : ¬(512 < img.width ∨ 512 < img.height) := by
      rintro (hc | hc) <;> omega
    simp only [scale512, if_neg hcond]
  · intro hcond
    have hpos : scale512 img = resizeNearest img 512 512 := by
      simp only [scale512, if_pos hcond]
    refine ⟨hpos, ?_, ?_⟩
    · rw [hpos]
      exact (resizeDims_le img.width img.height hcond).1
    · rw [hpos]
      exact (resizeDims_le img.width img.height hcond).2

theorem c9_downscale_witness :
    ((⟨1024, 1, []⟩ : Image).width ≤ 512 ∧ (⟨1024, 1, []⟩ : Image).height ≤ 512 →
      scale512 ⟨1024, 1, []⟩ = ⟨1024, 1, []⟩) ∧
    (512 < (⟨1024, 1, []⟩ : Image).width ∨ 512 < (⟨1024, 1, []⟩ : Image).height) ∧
    (scale512 ⟨1024, 1, []⟩ = resizeNearest ⟨1024, 1, []⟩ 512 512 ∧
      (scale512 (⟨1024, 1, []⟩ : Image)).width ≤ 512 ∧
      (scale512 (⟨1024, 1, []⟩ : Image)).height ≤ 512) :=
  ⟨(c9_downscale ⟨1024, 1, []⟩).1,
   Or.inl (by decide),
   (c9_downscale ⟨1024, 1, []⟩).2 (Or.inl (by decide))⟩

/-- C10: `compute_perceptual_hash` returns an error for
`HashType::Exact` and never produces a hash there; it produces a hash
for exactly the `Perceptual`, `Difference` and `Average` variants. -/
theorem c10_exact_never_hashes (img : Image) :
    (∃ e, compute_perceptual_hash img HashType.Exact = Except.error e) ∧
    (∀ h, compute_perceptual_hash img HashType.Exact ≠ Except.ok h) ∧
    compute_perceptual_hash img HashType.Perceptual =
      Except.ok (doubleGradientHash img) ∧
    compute_perceptual_hash img HashType.Difference =
      Except.ok (gradientHash img) ∧
    compute_perceptual_hash img HashType.Average = Except.ok (meanHash img) :=
  ⟨⟨"Bruk compute_exact_hash for eksakt hashing", rfl⟩,
   fun h hcontra => by simp [compute_perceptual_hash] at hcontra,
   rfl, rfl, rfl⟩

/-! ### C5: decode behaviour of the pipeline in the sources

The hashing pipeline of `find_duplicates` (`folder.rs` lines 103-140)
maintains no hash cache: for every path, on every run, it calls
`hashing::load_image` — and hence `image::open`, a decode operation —
unconditionally, before anything else. -/

/-- The hashing stage instrumented with its decode count, translated
from `folder.rs` lines 103-140: each path's closure invokes
`hashing::load_image` (one `image::open` decode operation) exactly once,
unconditionally — there is no cache lookup that could skip it.  Returns
the collected records and the number of decode operations of the run. -/
def hashStageCounted (fs : FS) : List String → List ImageWithHash × Nat
  | [] => ([], 0)
  | p :: rest =>
    let r := hashPath fs p
    let rr := hashStageCounted fs rest
    ((match r with
      | some x => x :: rr.1
      | none => rr.1), 1 + rr.2)

set_option maxRecDepth 40000 in
/-- C5 counterexample: the pipeline in the sources is cache-less, so a
second detection run over an unchanged file set decodes again.  Path
`"a"` hashes successfully, yet a repeat run over `["a"]` still performs
1 decode operation for it, not 0 — no run ever produces an
`ImageWithHash` without decoding. -/
theorem c5_no_cache_cex :
    (hashPath fsAB "a").isSome ∧
    (hashStageCounted fsAB ["a"]).2 = 1 ∧
    ¬(hashStageCounted fsAB ["a"]).2 = 0 := by decide

/-- C5 amended: the hashing pipeline of `find_duplicates` performs
exactly one decode operation per input path on every run — it collects
exactly the `hashedImages` records, and its decode count is the number
of input paths — so a second run over an unchanged file set repeats
every decode, and no path is ever produced from a cached hash. -/
theorem c5_always_decodes (fs : FS) (paths : List String) :
    (hashStageCounted fs paths).1 = hashedImages fs paths ∧
    (hashStageCounted fs paths).2 = paths.length := by
  induction paths with
  | nil => exact ⟨rfl, rfl⟩
  | cons p rest ih =>
    have ih1 : (hashStageCounted fs rest).1 = List.filterMap (hashPath fs) rest := ih.1
    refine ⟨?_, ?_⟩
    · cases h : hashPath fs p with
      | none =>
        simp only [hashStageCounted, hashedImages, List.filterMap_cons, h]
        exact ih1
      | some x =>
        simp only [hashStageCounted, hashedImages, List.filterMap_cons, h]
        rw [ih1]
    · simp only [hashStageCounted, List.length_cons]
      rw [ih.2]
      omega
